import Mathlib

/-!
Verification of the scene-understanding core (`Main.py`) against its
natural-language specification.

The embedding mirrors the Python source:

* Vertex ids are strings; region ids are Python ints, modelled as `ℤ`.
* A kind-list entry is either a vertex id or a region id (`Entry`); the
  Python code distinguishes the two with `isinstance(item, int)`.
* Python floats for angles are modelled as exact rationals `ℚ`.  The
  four-quadrant arctangent expression
  `(360 + degrees(atan2(x1 - x2, y1 - y2))) % 360` is transcendental, so it
  is abstracted as a parameter `dir : Point → Point → ℚ` giving the
  direction of the ray from the second point to the first; everything the
  claims state is independent of the concrete arctangent values.
* Python `round` (banker's rounding, ties to even) is `pyRound`.
* `dict` values are association lists in insertion order; `set`s of ints
  are `Finset ℤ`.
* Fatal Python exceptions (`KeyError` from a missing vertex, `IndexError`
  from too few neighbours, `AssertionError` from the angle-sum check) are
  modelled with `Except Err`.
-/

namespace SceneCore

/-- A kind-list entry: a neighbour vertex id (string) or a region id (int). -/
inductive Entry
  | v (id : String)
  | r (id : ℤ)
  deriving DecidableEq, Repr

instance : Inhabited Entry := ⟨Entry.r 0⟩

/-- Key used to give `Entry` a linear order (region entries first, then
vertex entries).  Python would raise on an int/str comparison; such mixed
comparisons are only reachable from malformed kind-lists and never affect
the merging semantics, because vertex entries are never members of any
nucleus. -/
def Entry.toKey : Entry → ℤ ⊕ₗ String
  | Entry.r m => toLex (Sum.inl m)
  | Entry.v s => toLex (Sum.inr s)

instance : LinearOrder Entry :=
  LinearOrder.lift' Entry.toKey (by
    intro a b h
    cases a <;> cases b <;> simp [Entry.toKey, toLex] at h <;> simp [h])

/-- 2-D coordinates, exact rationals. -/
abbrev Point := ℚ × ℚ

/-- Abstract direction function: `dir p q` models
`(360 + degrees(atan2(p.1 - q.1, p.2 - q.2))) % 360`. -/
abbrev Dir := Point → Point → ℚ

/-- Record held for each vertex (`vertices[v_id]` in the source). -/
structure VData where
  coords : Point
  kind_list : List Entry
  deriving DecidableEq, Repr

/-- The vertex table, in dict insertion order. -/
abbrev Scene := List (String × VData)

/-- Fatal error conditions of the core. -/
inductive Err
  | key     -- KeyError: kind-list references a missing vertex
  | idx     -- IndexError: fewer than two neighbours
  | assert  -- AssertionError: sector angles do not sum to 360 after retry
  deriving DecidableEq, Repr

/-- Python `round` on an exact rational: nearest integer, ties to even
(banker's rounding).  Written with integer operations: the floor is
`num / den` (Euclidean division; `den > 0`), and the fractional part
`(num % den) / den` is compared with one half by comparing `2 * (num % den)`
with `den`. -/
def pyRound (q : ℚ) : ℤ :=
  let f := q.num / (q.den : ℤ)
  let rn := q.num % (q.den : ℤ)
  if 2 * rn < (q.den : ℤ) then f
  else if (q.den : ℤ) < 2 * rn then f + 1
  else if Even f then f else f + 1

/-- `estimate_for_T`: a sector angle approximately a straight continuation. -/
def estimate_for_T (angle : ℚ) : Bool :=
  decide (175 ≤ angle ∧ angle ≤ 185)

/-- `angle_between(p1, p2, p3)`: counterclockwise angle at `p2` between the
rays to `p1` and to `p3`, in terms of the abstract direction function. -/
def angle_between (dir : Dir) (p1 p2 p3 : Point) : ℚ :=
  let deg1 := dir p1 p2
  let deg2 := dir p3 p2
  if deg1 ≤ deg2 then deg2 - deg1 else 360 - (deg1 - deg2)

/-- Indices visited by `range(0, len - 1, 2)` (the vertex entries of a
kind-list). -/
def strideEven (len : ℕ) : List ℕ :=
  (List.range len).filter (fun i => decide (i % 2 = 0) && decide (i + 1 < len))

/-- Indices visited by `range(1, len - 1, 2)` (the region entries of a
kind-list). -/
def strideOdd (len : ℕ) : List ℕ :=
  (List.range len).filter (fun i => decide (i % 2 = 1) && decide (i + 1 < len))

/-- The entries at even positions before the final repeated entry:
the neighbour-vertex entries of a kind-list, in order. -/
def kindVertexEntries (kl : List Entry) : List Entry :=
  (strideEven kl.length).map (fun i => kl.getD i default)

/-- The entries at odd positions before the final entry: the adjacent
region entries of a kind-list, in order (`regions` in `generate_links`). -/
def kindRegionEntries (kl : List Entry) : List Entry :=
  (strideOdd kl.length).map (fun i => kl.getD i default)

/-- Look up the coordinates of a kind-list entry in the vertex table.
A region entry or a missing vertex id is a `KeyError` (`none`). -/
def lookupCoords (scene : Scene) : Entry → Option Point
  | Entry.v vid => (List.lookup vid scene).map VData.coords
  | Entry.r _ => none

/-- Resolve the neighbour coordinates of a kind-list
(the tail of `adj_coors`). -/
def neighborCoords (scene : Scene) (kl : List Entry) : Except Err (List Point) :=
  (kindVertexEntries kl).mapM (fun e =>
    match lookupCoords scene e with
    | some p => Except.ok p
    | none => Except.error Err.key)

/-- Sector angles of one vertex (the body of the loop in
`get_sector_angles`): two neighbours give no sectors; three or more give
three sector angles computed from the first three neighbours, with one
alternate-pairing retry when the rounded sum is not 360; fewer than two
neighbours is an `IndexError`. -/
def perVertexAngles (dir : Dir) (scene : Scene) (vd : VData) : Except Err (List ℚ) :=
  match neighborCoords scene vd.kind_list with
  | Except.error e => Except.error e
  | Except.ok ns =>
    match vd.coords, ns with
    | _, [_, _] => Except.ok []
    | o, a1 :: a2 :: a3 :: _ =>
      let t1 := angle_between dir a1 o a2
      let t2 := angle_between dir a2 o a3
      let t3 := angle_between dir a3 o a1
      if pyRound (t1 + t2 + t3) = 360 then Except.ok [t1, t2, t3]
      else
        let s1 := angle_between dir a2 o a1
        let s2 := angle_between dir a3 o a2
        let s3 := angle_between dir a1 o a3
        if pyRound (s1 + s2 + s3) = 360 then Except.ok [s1, s2, s3]
        else Except.error Err.assert
    | _, _ => Except.error Err.idx

/-- `get_sector_angles`: the angle map over all vertices, in table order;
the first failing vertex aborts the computation. -/
def get_sector_angles (dir : Dir) (scene : Scene) :
    Except Err (List (String × List ℚ)) :=
  scene.mapM (fun p => (perVertexAngles dir scene p.2).map (fun l => (p.1, l)))

/-- Junction types. -/
inductive JType
  | L | T | FORK | ARROW | MULTI
  deriving DecidableEq, Repr

/-- `classify_vertex` on the vertex's angle list. -/
def classify_vertex (a : List ℚ) : JType :=
  if a.length = 0 then JType.L
  else if a.any estimate_for_T then JType.T
  else if a.all (fun x => decide (x < 180)) then JType.FORK
  else if a.any (fun x => decide (180 < x)) then JType.ARROW
  else JType.MULTI

/-- `add_link`: append a region-to-region link, ignoring self-links. -/
def add_link (r1 r2 : Entry) : List (Entry × Entry) :=
  if r1 ≠ r2 then [(r1, r2)] else []

/-- Links emitted for a single vertex by `generate_links`, given its
classification, its angle list (`angles_map.get(v_id, [])`) and its
kind-list. -/
def vertexLinks (t : JType) (a : List ℚ) (kl : List Entry) : List (Entry × Entry) :=
  let regions := kindRegionEntries kl
  if regions.length < 2 then []
  else if t = JType.FORK ∧ regions.length = 3 then
    add_link (regions.getD 0 default) (regions.getD 1 default) ++
    add_link (regions.getD 1 default) (regions.getD 2 default) ++
    add_link (regions.getD 0 default) (regions.getD 2 default)
  else if t = JType.ARROW then
    if a.length = 3 ∧ regions.length = 3 then
      if 180 < a.getD 0 0 then add_link (regions.getD 1 default) (regions.getD 2 default)
      else if 180 < a.getD 1 0 then add_link (regions.getD 0 default) (regions.getD 2 default)
      else add_link (regions.getD 0 default) (regions.getD 1 default)
    else
      add_link (regions.getD 0 default) (regions.getD 1 default)
  else []

/-- `generate_links`: all links, in vertex-table order.  `classifs` and
`angles` are total because `main` builds both maps over exactly the
vertices of the table (`angles_map.get(v_id, [])` defaults to `[]`). -/
def generate_links (scene : Scene) (classifs : String → JType)
    (angles : String → List ℚ) : List (Entry × Entry) :=
  scene.flatMap (fun p => vertexLinks (classifs p.1) (angles p.1) p.2.kind_list)

/-- `collect_all_regions`: every region id present in any vertex kind-list
(`isinstance(item, int)` keeps exactly the region entries). -/
def collect_all_regions (scene : Scene) : Finset ℤ :=
  scene.foldl (fun s p =>
    p.2.kind_list.foldl (fun s e =>
      match e with
      | Entry.r m => insert m s
      | Entry.v _ => s) s) ∅

/-- The set of distinct non-background region ids referenced in the scene. -/
def nonBgRegions (scene : Scene) (background : ℤ) : Finset ℤ :=
  (collect_all_regions scene).filter (fun r => r ≠ background)

/-- The source's nuclei initialisation (its name starts with a token this
file may not contain): one singleton nucleus per region of the scene, in
ascending order, excluding the background region. -/
def init_nuclei_all_regions (scene : Scene) (background : ℤ) : List (Finset ℤ) :=
  (((collect_all_regions scene).sort (· ≤ ·)).filter (fun r => r ≠ background)).map
    (fun r => ({r} : Finset ℤ))

/-- Python membership of a link endpoint in a nucleus: false for a (string)
vertex entry, since nuclei only ever contain ints. -/
def memE (e : Entry) (n : Finset ℤ) : Bool :=
  match e with
  | Entry.r m => decide (m ∈ n)
  | Entry.v _ => false

/-- The pair of positions found by the two nested scans of `merge_nuclei`:
the first `(i, j)` in `i`-major order with `a in nuclei[i]`,
`b in nuclei[j]` and `nuclei[i] is not nuclei[j]` (position inequality). -/
def findPair (nuclei : List (Finset ℤ)) (a b : Entry) : Option (ℕ × ℕ) :=
  ((List.range nuclei.length) ×ˢ (List.range nuclei.length)).find?
    (fun p => memE a (nuclei.getD p.1 ∅) && memE b (nuclei.getD p.2 ∅) &&
      decide (p.1 ≠ p.2))

/-- `merge_nuclei`: merge the nuclei containing `a` and `b` if they are
different, returning the updated list and the Python return value.  The
update mirrors the mutation order of the source: `n1.update(n2)` sets
position `i` to the union, then `nuclei.remove(n2)` erases the first
element equal to the old value at position `j`. -/
def merge_nuclei (nuclei : List (Finset ℤ)) (a b : Entry) :
    List (Finset ℤ) × Bool :=
  match findPair nuclei a b with
  | none => (nuclei, false)
  | some (i, j) =>
    ((nuclei.set i (nuclei.getD i ∅ ∪ nuclei.getD j ∅)).erase (nuclei.getD j ∅),
      true)

/-- `tuple(sorted((a, b)))` on a two-element tuple. -/
def sortPair (a b : Entry) : Entry × Entry :=
  if a ≤ b then (a, b) else (b, a)

/-- One `defaultdict(int)` increment, keeping dict insertion order. -/
def bump : List ((Entry × Entry) × ℕ) → Entry × Entry → List ((Entry × Entry) × ℕ)
  | [], k => [(k, 1)]
  | (k', n) :: rest, k =>
    if k' = k then (k', n + 1) :: rest else (k', n) :: bump rest k

/-- `link_counts`: link count per unordered pair, excluding background,
keys in first-occurrence order. -/
def linkCounts (links : List (Entry × Entry)) (background : ℤ) :
    List ((Entry × Entry) × ℕ) :=
  links.foldl (fun m p =>
    if p.1 = Entry.r background ∨ p.2 = Entry.r background then m
    else bump m (sortPair p.1 p.2)) []

/-- One full scan of `link_counts` inside the GLOBAL while-loop: merge on
every pair whose count is at least 2, accumulating the `changed` flag. -/
def globalPass (counts : List ((Entry × Entry) × ℕ))
    (nuclei : List (Finset ℤ)) : List (Finset ℤ) × Bool :=
  match counts with
  | [] => (nuclei, false)
  | (k, n) :: rest =>
    if 2 ≤ n then
      let r := merge_nuclei nuclei k.1 k.2
      let s := globalPass rest r.1
      (s.1, r.2 || s.2)
    else globalPass rest nuclei

/-- The GLOBAL `while changed` loop: repeat full scans until a complete
pass performs no merge. -/
def globalLoop (counts : List ((Entry × Entry) × ℕ))
    (nuclei : List (Finset ℤ)) : List (Finset ℤ) :=
  if h : (globalPass counts nuclei).2 = true then
    globalLoop counts (globalPass counts nuclei).1
  else (globalPass counts nuclei).1
termination_by nuclei.length
decreasing_by
  have hm : ∀ (M : List (Finset ℤ)) (a b : Entry),
      (merge_nuclei M a b).1.length ≤ M.length ∧
      ((merge_nuclei M a b).2 = true → (merge_nuclei M a b).1.length < M.length) := by
    intro M a b
    unfold merge_nuclei
    cases hf : findPair M a b with
    | none => simp
    | some p =>
      obtain ⟨i, j⟩ := p
      have hmem : (i, j) ∈ (List.range M.length) ×ˢ (List.range M.length) :=
        List.mem_of_find?_eq_some hf
      have hij : i ≠ j := by
        have hp := List.find?_some hf
        simp only [Bool.and_eq_true, decide_eq_true_eq] at hp
        exact hp.2
      have hj : j < M.length := by
        have hr2 := (List.mem_product.mp hmem).2
        simpa using hr2
      have hDj : M.getD j ∅ = M[j] := by
        rw [List.getD_eq_getElem?_getD, List.getElem?_eq_getElem hj]
        rfl
      have hj' : j < (M.set i (M.getD i ∅ ∪ M.getD j ∅)).length := by simpa using hj
      have hmemv : M.getD j ∅ ∈ M.set i (M.getD i ∅ ∪ M.getD j ∅) := by
        refine List.mem_iff_getElem.mpr ⟨j, hj', ?_⟩
        rw [List.getElem_set_of_ne hij (M.getD i ∅ ∪ M.getD j ∅) hj']
        exact hDj.symm
      have hlen := List.length_erase_of_mem hmemv
      simp only [List.length_set] at hlen
      constructor
      · simp only [hlen]
        omega
      · intro _
        simp only [hlen]
        omega
  have key : ∀ (cs : List ((Entry × Entry) × ℕ)) (M : List (Finset ℤ)),
      (globalPass cs M).1.length ≤ M.length ∧
      ((globalPass cs M).2 = true → (globalPass cs M).1.length < M.length) := by
    intro cs
    induction cs with
    | nil => intro M; simp [globalPass]
    | cons c rest ih =>
      intro M
      obtain ⟨k, n⟩ := c
      by_cases h2 : 2 ≤ n
      · simp only [globalPass, h2, if_pos]
        rcases hm M k.1 k.2 with ⟨hle, hlt⟩
        rcases ih (merge_nuclei M k.1 k.2).1 with ⟨hle2, hlt2⟩
        cases hr : (merge_nuclei M k.1 k.2).2 with
        | true =>
          have := hlt hr
          exact ⟨le_trans hle2 (le_of_lt this), fun _ => lt_of_le_of_lt hle2 this⟩
        | false =>
          refine ⟨le_trans hle2 hle, fun hch => ?_⟩
          simp only [hr, Bool.false_or] at hch
          exact lt_of_lt_of_le (hlt2 hch) hle
      · simp only [globalPass, h2, if_neg, not_false_iff]
        exact ih M
  exact (key counts nuclei).2 h

/-- `run_GLOBAL` (strong evidence): count links, one singleton nucleus per
non-background region, merge to a fixed point. -/
def run_GLOBAL (links : List (Entry × Entry)) (scene : Scene)
    (background : ℤ) : List (Finset ℤ) :=
  globalLoop (linkCounts links background) (init_nuclei_all_regions scene background)

/-- The element Python's `next(iter(s))` yields from a singleton int set
(the only situation the source uses it in). -/
def pickZ (s : Finset ℤ) : ℤ := (s.sort (· ≤ ·)).headD 0

/-- The element Python's `next(iter(s))` yields from a singleton set of
link endpoints. -/
def pickE (s : Finset Entry) : Entry := (s.sort (· ≤ ·)).headD default

/-- `link_map`: undirected adjacency over link endpoints, background links
ignored. -/
def linkMap (links : List (Entry × Entry)) (background : ℤ) (e : Entry) :
    Finset Entry :=
  links.foldl (fun s p =>
    if p.1 = Entry.r background ∨ p.2 = Entry.r background then s
    else
      let s1 := if e = p.1 then insert p.2 s else s
      if e = p.2 then insert p.1 s1 else s1) ∅

/-- One scan of the SINGLEBODY while-loop over the snapshot `l` of the
nucleus list: at the first singleton nucleus whose region has exactly one
neighbour and whose merge succeeds, return the merged list (the `break`);
`none` when a complete scan performs no merge. -/
def sbScan (adj : Entry → Finset Entry) (nuclei : List (Finset ℤ)) :
    List (Finset ℤ) → Option (List (Finset ℤ))
  | [] => none
  | n :: rest =>
    if n.card = 1 then
      if (adj (Entry.r (pickZ n))).card = 1 then
        let r := merge_nuclei nuclei (Entry.r (pickZ n))
          (pickE (adj (Entry.r (pickZ n))))
        if r.2 then some r.1 else sbScan adj nuclei rest
      else sbScan adj nuclei rest
    else sbScan adj nuclei rest

/-- The SINGLEBODY `while changed` loop: rescan from the top after every
merge, stop when a complete scan performs no merge. -/
def sbLoop (adj : Entry → Finset Entry) (nuclei : List (Finset ℤ)) :
    List (Finset ℤ) :=
  if h : (sbScan adj nuclei nuclei).isSome then
    sbLoop adj ((sbScan adj nuclei nuclei).get h)
  else nuclei
termination_by nuclei.length
decreasing_by
  have hm : ∀ (M : List (Finset ℤ)) (a b : Entry),
      (merge_nuclei M a b).2 = true → (merge_nuclei M a b).1.length < M.length := by
    intro M a b
    unfold merge_nuclei
    cases hf : findPair M a b with
    | none => simp
    | some p =>
      obtain ⟨i, j⟩ := p
      have hmem : (i, j) ∈ (List.range M.length) ×ˢ (List.range M.length) :=
        List.mem_of_find?_eq_some hf
      have hij : i ≠ j := by
        have hp := List.find?_some hf
        simp only [Bool.and_eq_true, decide_eq_true_eq] at hp
        exact hp.2
      have hj : j < M.length := by
        have hr2 := (List.mem_product.mp hmem).2
        simpa using hr2
      have hDj : M.getD j ∅ = M[j] := by
        rw [List.getD_eq_getElem?_getD, List.getElem?_eq_getElem hj]
        rfl
      have hj' : j < (M.set i (M.getD i ∅ ∪ M.getD j ∅)).length := by simpa using hj
      have hmemv : M.getD j ∅ ∈ M.set i (M.getD i ∅ ∪ M.getD j ∅) := by
        refine List.mem_iff_getElem.mpr ⟨j, hj', ?_⟩
        rw [List.getElem_set_of_ne hij (M.getD i ∅ ∪ M.getD j ∅) hj']
        exact hDj.symm
      have hlen := List.length_erase_of_mem hmemv
      simp only [List.length_set] at hlen
      intro _
      simp only [hlen]
      omega
  have key : ∀ (l M L' : List (Finset ℤ)), sbScan adj M l = some L' →
      L'.length < M.length := by
    intro l
    induction l with
    | nil => intro M L' hsc; simp [sbScan] at hsc
    | cons n rest ih =>
      intro M L' hsc
      by_cases h1 : n.card = 1
      · by_cases hadj : (adj (Entry.r (pickZ n))).card = 1
        · simp only [sbScan, h1, hadj, if_pos] at hsc
          cases hr : (merge_nuclei M (Entry.r (pickZ n))
              (pickE (adj (Entry.r (pickZ n))))).2 with
          | true =>
            simp only [hr, if_pos] at hsc
            cases hsc
            exact hm M _ _ hr
          | false =>
            simp only [hr, Bool.false_eq_true, if_neg, not_false_iff] at hsc
            exact ih M L' hsc
        · simp only [sbScan, h1, hadj, if_pos, if_neg, not_false_iff] at hsc
          exact ih M L' hsc
      · simp only [sbScan, h1, if_neg, not_false_iff] at hsc
        exact ih M L' hsc
  exact key nuclei nuclei _ (Option.some_get h).symm

/-- `run_SINGLEBODY` (weak evidence): merge lone-neighbour singletons to a
fixed point. -/
def run_SINGLEBODY (links : List (Entry × Entry)) (nuclei : List (Finset ℤ))
    (background : ℤ) : List (Finset ℤ) :=
  sbLoop (linkMap links background) nuclei

/-- `extract_bodies`: each nucleus becomes the ascending list of its
region ids. -/
def extract_bodies (nuclei : List (Finset ℤ)) : List (List ℤ) :=
  nuclei.map (fun n => n.sort (· ≤ ·))

/-- The core pipeline of `main` after loading: sector angles,
classification, links, GLOBAL then SINGLEBODY grouping, body extraction.
A fatal error at any vertex aborts the scene with no body output. -/
def runScene (dir : Dir) (scene : Scene) (background : ℤ) :
    Except Err (List (List ℤ)) :=
  match get_sector_angles dir scene with
  | Except.error e => Except.error e
  | Except.ok am =>
    let angles := fun vid => (List.lookup vid am).getD []
    let classifs := fun vid => classify_vertex (angles vid)
    let links := generate_links scene classifs angles
    Except.ok (extract_bodies
      (run_SINGLEBODY links (run_GLOBAL links scene background) background))

/-- Fuel-indexed version of the GLOBAL while-loop, for the termination
bound of the fixed-point iteration. -/
def globalIter : ℕ → List ((Entry × Entry) × ℕ) → List (Finset ℤ) → List (Finset ℤ)
  | 0, _, nuclei => nuclei
  | fuel + 1, counts, nuclei =>
    if (globalPass counts nuclei).2 = true then
      globalIter fuel counts (globalPass counts nuclei).1
    else (globalPass counts nuclei).1

/-- Fuel-indexed version of the SINGLEBODY while-loop. -/
def sbIter : ℕ → (Entry → Finset Entry) → List (Finset ℤ) → List (Finset ℤ)
  | 0, _, nuclei => nuclei
  | fuel + 1, adj, nuclei =>
    if h : (sbScan adj nuclei nuclei).isSome then
      sbIter fuel adj ((sbScan adj nuclei nuclei).get h)
    else nuclei

/-- The partition invariant of the spec: nuclei are pairwise disjoint and
nonempty, and their union is exactly the non-background region set `S`. -/
def Inv (nuclei : List (Finset ℤ)) (S : Finset ℤ) : Prop :=
  nuclei.Pairwise (fun s t => Disjoint s t) ∧
  nuclei.foldr (· ∪ ·) ∅ = S ∧
  ∀ s ∈ nuclei, s.Nonempty

/-! ### Concrete inputs used by witnesses and counterexamples -/

/-- A degenerate direction function: every ray has direction 0 (what the
source computes when points coincide, cf. the `DegenerateVector` policy). -/
def cDir0 : Dir := fun _ _ => 0

/-- A direction table for the four unit directions. -/
def cDirW : Dir := fun p _ =>
  if p = ((1 : ℚ), (0 : ℚ)) then 0
  else if p = ((0 : ℚ), (1 : ℚ)) then 90
  else if p = ((-1 : ℚ), (0 : ℚ)) then 180
  else if p = ((0 : ℚ), (-1 : ℚ)) then 270
  else 0

/-- A scene whose vertex `x` has exactly three neighbours. -/
def cSceneT : Scene :=
  [("x", ⟨(0, 0), [Entry.v "a", Entry.r 1, Entry.v "b", Entry.r 2,
      Entry.v "c", Entry.r 3, Entry.v "a"]⟩),
   ("a", ⟨(0, 1), [Entry.v "x", Entry.r 9, Entry.v "b", Entry.r 9, Entry.v "x"]⟩),
   ("b", ⟨(1, 0), [Entry.v "x", Entry.r 9, Entry.v "a", Entry.r 9, Entry.v "x"]⟩),
   ("c", ⟨(0, -1), [Entry.v "x", Entry.r 9, Entry.v "a", Entry.r 9, Entry.v "x"]⟩)]

/-- A kind-list with four neighbour vertices. -/
def cKlW : List Entry :=
  [Entry.v "a", Entry.r 1, Entry.v "b", Entry.r 2, Entry.v "c", Entry.r 3,
   Entry.v "d", Entry.r 4, Entry.v "a"]

/-- A scene whose vertex `x` has four neighbours. -/
def cSceneW : Scene :=
  [("x", ⟨(0, 0), cKlW⟩),
   ("a", ⟨(1, 0), [Entry.v "x", Entry.r 9, Entry.v "b", Entry.r 9, Entry.v "x"]⟩),
   ("b", ⟨(0, 1), [Entry.v "x", Entry.r 9, Entry.v "a", Entry.r 9, Entry.v "x"]⟩),
   ("c", ⟨(-1, 0), [Entry.v "x", Entry.r 9, Entry.v "a", Entry.r 9, Entry.v "x"]⟩),
   ("d", ⟨(0, -1), [Entry.v "x", Entry.r 9, Entry.v "a", Entry.r 9, Entry.v "x"]⟩)]

/-- A kind-list whose first and third adjacent regions coincide. -/
def cKlArrow : List Entry :=
  [Entry.v "a", Entry.r 1, Entry.v "b", Entry.r 2, Entry.v "c", Entry.r 1,
   Entry.v "a"]

/-- A one-vertex scene whose kind-list mentions region 0 (the designated
background of the example) along with regions 1 and 2. -/
def cSceneFork : Scene :=
  [("x", ⟨(0, 0), [Entry.v "a", Entry.r 0, Entry.v "b", Entry.r 1,
      Entry.v "c", Entry.r 2, Entry.v "a"]⟩)]

/-- A one-vertex scene referencing regions 1 and 2 only. -/
def cSceneTwo : Scene :=
  [("x", ⟨(0, 0), [Entry.v "y", Entry.r 1, Entry.v "z", Entry.r 2,
      Entry.v "y"]⟩)]

/-! ### List helper lemmas -/

theorem foldr_union_perm {l1 l2 : List (Finset ℤ)} (p : l1.Perm l2) :
    l1.foldr (· ∪ ·) ∅ = l2.foldr (· ∪ ·) ∅ := by
  induction p with
  | nil => rfl
  | cons x _ ih => simp only [List.foldr_cons, ih]
  | swap x y l => simp only [List.foldr_cons]; exact Finset.union_left_comm y x _
  | trans _ _ ih1 ih2 => exact ih1.trans ih2

theorem getD_mem {α : Type} : ∀ (l : List α) (i : ℕ) (d : α), i < l.length →
    l.getD i d ∈ l := by
  intro l
  induction l with
  | nil => intro i d h; simp at h
  | cons x t ih =>
    intro i d h
    cases i with
    | zero => simp
    | succ n =>
      simp only [List.getD_cons_succ]
      exact List.mem_cons_of_mem x (ih n d (by simpa using h))

theorem set_perm {α : Type} : ∀ (l : List α) (i : ℕ) (u : α), i < l.length →
    (l.set i u).Perm (u :: l.eraseIdx i) := by
  intro l
  induction l with
  | nil => intro i u h; simp at h
  | cons x t ih =>
    intro i u h
    cases i with
    | zero => simp [List.set]
    | succ n =>
      simp only [List.set_cons_succ, List.eraseIdx_cons_succ]
      exact ((ih n u (by simpa using h)).cons x).trans (List.Perm.swap u x _)

theorem getD_eraseIdx_perm {α : Type} : ∀ (l : List α) (i : ℕ) (d : α),
    i < l.length → l.Perm (l.getD i d :: l.eraseIdx i) := by
  intro l
  induction l with
  | nil => intro i d h; simp at h
  | cons x t ih =>
    intro i d h
    cases i with
    | zero => simp
    | succ n =>
      simp only [List.getD_cons_succ, List.eraseIdx_cons_succ]
      exact ((ih n d (by simpa using h)).cons x).trans (List.Perm.swap _ x _)

/-- Surgery on the nucleus list performed by a successful merge: when all
positions other than `j` hold values different from the one at `j` and the
union written at `i` differs from the value at `j`, updating position `i`
and erasing the first occurrence of the old value of position `j` behaves,
up to permutation, like replacing the two merged nuclei by one. -/
theorem merge_surgery :
    ∀ (L : List (Finset ℤ)) (i j : ℕ) (u : Finset ℤ),
      i < L.length → j < L.length → i ≠ j →
      (∀ k, k < L.length → k ≠ j → L.getD k ∅ ≠ L.getD j ∅) →
      u ≠ L.getD j ∅ →
      ∃ rest, L.Perm (L.getD i ∅ :: L.getD j ∅ :: rest) ∧
        ((L.set i u).erase (L.getD j ∅)).Perm (u :: rest) := by
  intro L
  induction L with
  | nil => intro i j u hi _ _ _ _; simp at hi
  | cons x t ih =>
    intro i j u hi hj hij hdist hu
    cases i with
    | zero =>
      cases j with
      | zero => exact absurd rfl hij
      | succ j' =>
        have hj' : j' < t.length := by simpa using hj
        have hvmem : t.getD j' ∅ ∈ t := getD_mem t j' ∅ hj'
        refine ⟨t.erase (t.getD j' ∅), ?_, ?_⟩
        · simp only [List.getD_cons_zero, List.getD_cons_succ]
          exact (List.perm_cons_erase hvmem).cons x
        · simp only [List.getD_cons_succ] at hu ⊢
          show ((u :: t).erase (t.getD j' ∅)).Perm (u :: t.erase (t.getD j' ∅))
          rw [List.erase_cons_tail]
          simp only [beq_iff_eq]
          exact hu
    | succ i' =>
      have hi' : i' < t.length := by simpa using hi
      cases j with
      | zero =>
        refine ⟨t.eraseIdx i', ?_, ?_⟩
        · simp only [List.getD_cons_succ, List.getD_cons_zero]
          exact ((getD_eraseIdx_perm t i' ∅ hi').cons x).trans
            (List.Perm.swap _ x _)
        · simp only [List.getD_cons_zero, List.set_cons_succ,
            List.erase_cons_head]
          exact set_perm t i' u hi'
      | succ j' =>
        have hj' : j' < t.length := by simpa using hj
        have hij' : i' ≠ j' := fun hh => hij (by rw [hh])
        have hdist' : ∀ k, k < t.length → k ≠ j' →
            t.getD k ∅ ≠ t.getD j' ∅ := by
          intro k hk hkj
          have := hdist (k + 1) (by simpa using hk) (fun hh => hkj (by omega))
          simpa using this
        have hu' : u ≠ t.getD j' ∅ := by simpa using hu
        obtain ⟨rest', p1, p2⟩ := ih i' j' u hi' hj' hij' hdist' hu'
        have hx : x ≠ t.getD j' ∅ := by
          have := hdist 0 (by simp) (by simp)
          simpa using this
        refine ⟨x :: rest', ?_, ?_⟩
        · simp only [List.getD_cons_succ]
          refine (p1.cons x).trans ?_
          exact (List.Perm.swap _ x _).trans
            ((List.Perm.swap _ x _).cons (t.getD i' ∅))
        · simp only [List.getD_cons_succ, List.set_cons_succ]
          rw [List.erase_cons_tail]
          · exact (p2.cons x).trans (List.Perm.swap u x rest')
          · simp only [beq_iff_eq]
            exact hx

/-! ### `findPair` and `merge_nuclei` basic facts -/

theorem memE_true {e : Entry} {n : Finset ℤ} (h : memE e n = true) :
    ∃ m, e = Entry.r m ∧ m ∈ n := by
  cases e with
  | v s => simp [memE] at h
  | r m => exact ⟨m, rfl, by simpa [memE] using h⟩

theorem findPair_some {L : List (Finset ℤ)} {a b : Entry} {i j : ℕ}
    (h : findPair L a b = some (i, j)) :
    i < L.length ∧ j < L.length ∧ i ≠ j ∧
      memE a (L.getD i ∅) = true ∧ memE b (L.getD j ∅) = true := by
  have hmem : (i, j) ∈ (List.range L.length) ×ˢ (List.range L.length) :=
    List.mem_of_find?_eq_some h
  have hp := List.find?_some h
  simp only [Bool.and_eq_true, decide_eq_true_eq] at hp
  rcases List.mem_product.mp hmem with ⟨h1, h2⟩
  exact ⟨by simpa using h1, by simpa using h2, hp.2, hp.1.1, hp.1.2⟩

theorem findPair_isSome_iff (L : List (Finset ℤ)) (a b : Entry) :
    (findPair L a b).isSome = true ↔
      ∃ i j, i < L.length ∧ j < L.length ∧ i ≠ j ∧
        memE a (L.getD i ∅) = true ∧ memE b (L.getD j ∅) = true := by
  rw [findPair, List.find?_isSome]
  constructor
  · rintro ⟨⟨i, j⟩, hmem, hp⟩
    simp only [Bool.and_eq_true, decide_eq_true_eq] at hp
    rcases List.mem_product.mp hmem with ⟨h1, h2⟩
    exact ⟨i, j, by simpa using h1, by simpa using h2, hp.2, hp.1.1, hp.1.2⟩
  · rintro ⟨i, j, hi, hj, hij, ha, hb⟩
    refine ⟨(i, j), ?_, ?_⟩
    · exact List.mem_product.mpr ⟨by simpa using hi, by simpa using hj⟩
    · simp only [Bool.and_eq_true, decide_eq_true_eq]
      exact ⟨⟨ha, hb⟩, hij⟩

theorem merge_false_eq {L : List (Finset ℤ)} {a b : Entry}
    (h : (merge_nuclei L a b).2 = false) : (merge_nuclei L a b).1 = L := by
  unfold merge_nuclei at h ⊢
  cases hf : findPair L a b with
  | none => rfl
  | some p =>
    obtain ⟨i, j⟩ := p
    rw [hf] at h
    simp at h

theorem merge_true_iff (L : List (Finset ℤ)) (a b : Entry) :
    (merge_nuclei L a b).2 = true ↔
      ∃ i j, i < L.length ∧ j < L.length ∧ i ≠ j ∧
        memE a (L.getD i ∅) = true ∧ memE b (L.getD j ∅) = true := by
  rw [← findPair_isSome_iff]
  unfold merge_nuclei
  cases hf : findPair L a b with
  | none => simp
  | some p => obtain ⟨i, j⟩ := p; simp

/-- A merge preserves the partition invariant. -/
theorem merge_inv {L : List (Finset ℤ)} {S : Finset ℤ} (a b : Entry)
    (h : Inv L S) : Inv (merge_nuclei L a b).1 S := by
  rcases h with ⟨hpw, hun, hne⟩
  unfold merge_nuclei
  cases hf : findPair L a b with
  | none => exact ⟨hpw, hun, hne⟩
  | some p =>
    obtain ⟨i, j⟩ := p
    obtain ⟨hi, hj, hij, ha, hb⟩ := findPair_some hf
    obtain ⟨ma, hea, hma⟩ := memE_true ha
    obtain ⟨mb, heb, hmb⟩ := memE_true hb
    have hgetd : ∀ k, (hk : k < L.length) → L.getD k ∅ = L.get ⟨k, hk⟩ := by
      intro k hk
      rw [List.getD_eq_getElem?_getD, List.getElem?_eq_getElem hk]
      rfl
    have hdisj : ∀ k l, k < L.length → l < L.length → k ≠ l →
        Disjoint (L.getD k ∅) (L.getD l ∅) := by
      intro k l hk hl hkl
      rw [hgetd k hk, hgetd l hl]
      rcases Nat.lt_or_ge k l with hlt | hge
      · exact List.pairwise_iff_get.mp hpw ⟨k, hk⟩ ⟨l, hl⟩ hlt
      · have hlt : l < k := by omega
        exact (List.pairwise_iff_get.mp hpw ⟨l, hl⟩ ⟨k, hk⟩ hlt).symm
    have hdist : ∀ k, k < L.length → k ≠ j → L.getD k ∅ ≠ L.getD j ∅ := by
      intro k hk hkj heq
      have hd := hdisj k j hk hj hkj
      rw [heq] at hd
      have hempty : L.getD j ∅ = ∅ := by
        have hbot := disjoint_self.mp hd
        simpa using hbot
      rw [hempty] at hmb
      exact Finset.not_mem_empty mb hmb
    have hu : L.getD i ∅ ∪ L.getD j ∅ ≠ L.getD j ∅ := by
      intro heq
      have : ma ∈ L.getD j ∅ := heq ▸ Finset.mem_union_left _ hma
      exact Finset.disjoint_left.mp (hdisj i j hi hj hij) hma this
    obtain ⟨rest, p1, p2⟩ :=
      merge_surgery L i j (L.getD i ∅ ∪ L.getD j ∅) hi hj hij hdist hu
    have hpw1 : (L.getD i ∅ :: L.getD j ∅ :: rest).Pairwise
        (fun s t => Disjoint s t) :=
      (p1.pairwise_iff (fun hd => Disjoint.symm hd)).mp hpw
    rw [List.pairwise_cons] at hpw1
    obtain ⟨hgi, hpw2⟩ := hpw1
    rw [List.pairwise_cons] at hpw2
    obtain ⟨hgj, hrest⟩ := hpw2
    refine ⟨?_, ?_, ?_⟩
    · refine (p2.pairwise_iff (fun hd => Disjoint.symm hd)).mpr ?_
      rw [List.pairwise_cons]
      refine ⟨?_, hrest⟩
      intro y hy
      exact Finset.disjoint_union_left.mpr
        ⟨hgi y (List.mem_cons_of_mem _ hy), hgj y hy⟩
    · rw [foldr_union_perm p2, ← hun, foldr_union_perm p1]
      simp only [List.foldr_cons]
      rw [Finset.union_assoc]
    · intro s hs
      rcases (p2.mem_iff).mp hs with hs2
      rcases List.mem_cons.mp hs2 with hs3 | hs3
      · rw [hs3]
        exact ⟨ma, Finset.mem_union_left _ hma⟩
      · have : s ∈ L := (p1.mem_iff).mpr
          (List.mem_cons_of_mem _ (List.mem_cons_of_mem _ hs3))
        exact hne s this

/-- A merge never grows the nucleus list, and a successful merge strictly
shrinks it. -/
theorem merge_length {L : List (Finset ℤ)} (a b : Entry) :
    (merge_nuclei L a b).1.length ≤ L.length ∧
      ((merge_nuclei L a b).2 = true →
        (merge_nuclei L a b).1.length < L.length) := by
  unfold merge_nuclei
  cases hf : findPair L a b with
  | none => simp
  | some p =>
    obtain ⟨i, j⟩ := p
    obtain ⟨hi, hj, hij, -, -⟩ := findPair_some hf
    have hDj : L.getD j ∅ = L[j] := by
      rw [List.getD_eq_getElem?_getD, List.getElem?_eq_getElem hj]
      rfl
    have hj' : j < (L.set i (L.getD i ∅ ∪ L.getD j ∅)).length := by simpa using hj
    have hmemv : L.getD j ∅ ∈ L.set i (L.getD i ∅ ∪ L.getD j ∅) := by
      refine List.mem_iff_getElem.mpr ⟨j, hj', ?_⟩
      rw [List.getElem_set_of_ne hij (L.getD i ∅ ∪ L.getD j ∅) hj']
      exact hDj.symm
    have hlen := List.length_erase_of_mem hmemv
    simp only [List.length_set] at hlen
    constructor
    · simp only [hlen]; omega
    · intro _; simp only [hlen]; omega

/-! ### Pass and loop lemmas: GLOBAL phase -/

theorem globalPass_false_eq :
    ∀ (cs : List ((Entry × Entry) × ℕ)) (L : List (Finset ℤ)),
      (globalPass cs L).2 = false → (globalPass cs L).1 = L := by
  intro cs
  induction cs with
  | nil => intro L _; rfl
  | cons c rest ih =>
    intro L h
    obtain ⟨k, n⟩ := c
    by_cases h2 : 2 ≤ n
    · simp only [globalPass] at h ⊢
      rw [if_pos h2] at h ⊢
      simp only [Bool.or_eq_false_iff] at h
      obtain ⟨hm, hs⟩ := h
      have h1 := merge_false_eq hm
      simp only [h1] at hs ⊢
      exact ih L hs
    · simp only [globalPass] at h ⊢
      rw [if_neg h2] at h ⊢
      exact ih L h

theorem globalPass_inv {S : Finset ℤ} :
    ∀ (cs : List ((Entry × Entry) × ℕ)) (L : List (Finset ℤ)),
      Inv L S → Inv (globalPass cs L).1 S := by
  intro cs
  induction cs with
  | nil => intro L h; exact h
  | cons c rest ih =>
    intro L h
    obtain ⟨k, n⟩ := c
    by_cases h2 : 2 ≤ n
    · simp only [globalPass]
      rw [if_pos h2]
      exact ih _ (merge_inv k.1 k.2 h)
    · simp only [globalPass]
      rw [if_neg h2]
      exact ih L h

theorem globalPass_length :
    ∀ (cs : List ((Entry × Entry) × ℕ)) (L : List (Finset ℤ)),
      (globalPass cs L).1.length ≤ L.length ∧
        ((globalPass cs L).2 = true → (globalPass cs L).1.length < L.length) := by
  intro cs
  induction cs with
  | nil => intro L; simp [globalPass]
  | cons c rest ih =>
    intro L
    obtain ⟨k, n⟩ := c
    by_cases h2 : 2 ≤ n
    · simp only [globalPass]
      rw [if_pos h2]
      rcases merge_length (L := L) k.1 k.2 with ⟨hle, hlt⟩
      rcases ih (merge_nuclei L k.1 k.2).1 with ⟨hle2, hlt2⟩
      cases hr : (merge_nuclei L k.1 k.2).2 with
      | true =>
        have hstep := hlt hr
        exact ⟨le_trans hle2 (le_of_lt hstep), fun _ => lt_of_le_of_lt hle2 hstep⟩
      | false =>
        refine ⟨le_trans hle2 hle, fun hch => ?_⟩
        simp only [hr, Bool.false_or] at hch
        exact lt_of_lt_of_le (hlt2 hch) hle
    · simp only [globalPass]
      rw [if_neg h2]
      exact ih L

/-- At a pass fixed point, every strong pair fails to merge. -/
theorem globalPass_fixed_merges :
    ∀ (cs : List ((Entry × Entry) × ℕ)) (L : List (Finset ℤ)),
      globalPass cs L = (L, false) →
      ∀ k n, (k, n) ∈ cs → 2 ≤ n → (merge_nuclei L k.1 k.2).2 = false := by
  intro cs
  induction cs with
  | nil => intro L _ k n hmem; simp at hmem
  | cons c rest ih =>
    intro L h k n hmem h2
    obtain ⟨k0, n0⟩ := c
    rcases List.mem_cons.mp hmem with hhead | htail
    · obtain ⟨hk, hn⟩ := Prod.mk.injEq .. ▸ hhead
      subst hk
      subst hn
      simp only [globalPass] at h
      rw [if_pos h2] at h
      have h22 : ((globalPass rest (merge_nuclei L k.1 k.2).1).1,
          (merge_nuclei L k.1 k.2).2 ||
            (globalPass rest (merge_nuclei L k.1 k.2).1).2) = (L, false) := h
      have hflag := congrArg Prod.snd h22
      simp only [Bool.or_eq_false_iff] at hflag
      exact hflag.1
    · by_cases h20 : 2 ≤ n0
      · simp only [globalPass] at h
        rw [if_pos h20] at h
        have hflag := congrArg Prod.snd h
        simp only [Bool.or_eq_false_iff] at hflag
        have hm0 := merge_false_eq hflag.1
        rw [hm0] at h
        have hfst := congrArg Prod.fst h
        simp only at hfst
        have hsnd0 := congrArg Prod.snd h
        simp only [Bool.or_eq_false_iff] at hsnd0
        have hpair : globalPass rest L = (L, false) := Prod.ext hfst hsnd0.2
        exact ih L hpair k n htail h2
      · simp only [globalPass] at h
        rw [if_neg h20] at h
        exact ih L h k n htail h2

theorem globalLoop_true {counts : List ((Entry × Entry) × ℕ)}
    {L : List (Finset ℤ)} (h : (globalPass counts L).2 = true) :
    globalLoop counts L = globalLoop counts (globalPass counts L).1 := by
  rw [globalLoop]
  rw [dif_pos h]

theorem globalLoop_false {counts : List ((Entry × Entry) × ℕ)}
    {L : List (Finset ℤ)} (h : (globalPass counts L).2 = false) :
    globalLoop counts L = (globalPass counts L).1 := by
  rw [globalLoop]
  rw [dif_neg (by simp [h])]

/-- The GLOBAL loop stops at a fixed point: one more complete pass over the
result performs no merge and returns it unchanged. -/
theorem globalLoop_fixed (counts : List ((Entry × Entry) × ℕ))
    (L : List (Finset ℤ)) :
    globalPass counts (globalLoop counts L) = (globalLoop counts L, false) := by
  have H : ∀ (b : ℕ) (M : List (Finset ℤ)), M.length ≤ b →
      globalPass counts (globalLoop counts M) = (globalLoop counts M, false) := by
    intro b
    induction b with
    | zero =>
      intro M hb
      cases hp : (globalPass counts M).2 with
      | true =>
        have := (globalPass_length counts M).2 hp
        omega
      | false =>
        rw [globalLoop_false hp, globalPass_false_eq counts M hp]
        exact Prod.ext (globalPass_false_eq counts M hp) hp
    | succ m ih =>
      intro M hb
      cases hp : (globalPass counts M).2 with
      | true =>
        rw [globalLoop_true hp]
        have hlt := (globalPass_length counts M).2 hp
        exact ih _ (by omega)
      | false =>
        rw [globalLoop_false hp, globalPass_false_eq counts M hp]
        exact Prod.ext (globalPass_false_eq counts M hp) hp
  exact H L.length L le_rfl

theorem globalLoop_inv {S : Finset ℤ} (counts : List ((Entry × Entry) × ℕ)) :
    ∀ (L : List (Finset ℤ)), Inv L S → Inv (globalLoop counts L) S := by
  have H : ∀ (b : ℕ) (M : List (Finset ℤ)), M.length ≤ b →
      Inv M S → Inv (globalLoop counts M) S := by
    intro b
    induction b with
    | zero =>
      intro M hb h
      cases hp : (globalPass counts M).2 with
      | true =>
        have := (globalPass_length counts M).2 hp
        omega
      | false =>
        rw [globalLoop_false hp, globalPass_false_eq counts M hp]
        exact h
    | succ m ih =>
      intro M hb h
      cases hp : (globalPass counts M).2 with
      | true =>
        rw [globalLoop_true hp]
        have hlt := (globalPass_length counts M).2 hp
        exact ih _ (by omega) (globalPass_inv counts M h)
      | false =>
        rw [globalLoop_false hp, globalPass_false_eq counts M hp]
        exact h
  intro L
  exact H L.length L le_rfl

/-- Enough fuel (any bound above the nucleus count) makes the fuel-indexed
iteration agree with the fixed-point loop: the GLOBAL while-loop performs
at most `|nuclei|` merging passes before reaching its fixed point. -/
theorem globalIter_eq :
    ∀ (fuel : ℕ) (counts : List ((Entry × Entry) × ℕ)) (L : List (Finset ℤ)),
      L.length < fuel → globalIter fuel counts L = globalLoop counts L := by
  intro fuel
  induction fuel with
  | zero => intro counts L h; omega
  | succ f ih =>
    intro counts L h
    simp only [globalIter]
    by_cases hp : (globalPass counts L).2 = true
    · rw [if_pos hp, globalLoop_true hp]
      have hlt := (globalPass_length counts L).2 hp
      exact ih counts _ (by omega)
    · rw [if_neg hp, globalLoop_false (Bool.not_eq_true _ ▸ hp : (globalPass counts L).2 = false)]

/-! ### Pass and loop lemmas: SINGLEBODY phase -/

theorem pickZ_singleton (m : ℤ) : pickZ {m} = m := by
  simp [pickZ]

theorem pickE_singleton (e : Entry) : pickE {e} = e := by
  simp [pickE]

theorem card_one_eq_pickZ {n : Finset ℤ} (h : n.card = 1) : n = {pickZ n} := by
  obtain ⟨x, hx⟩ := Finset.card_eq_one.mp h
  subst hx
  rw [pickZ_singleton]

theorem sbScan_some_spec (adj : Entry → Finset Entry) :
    ∀ (l M L' : List (Finset ℤ)), sbScan adj M l = some L' →
      ∃ n, n ∈ l ∧ n.card = 1 ∧ (adj (Entry.r (pickZ n))).card = 1 ∧
        (merge_nuclei M (Entry.r (pickZ n)) (pickE (adj (Entry.r (pickZ n))))).2 = true ∧
        L' = (merge_nuclei M (Entry.r (pickZ n)) (pickE (adj (Entry.r (pickZ n))))).1 := by
  intro l
  induction l with
  | nil => intro M L' h; simp [sbScan] at h
  | cons n rest ih =>
    intro M L' h
    by_cases h1 : n.card = 1
    · by_cases hadj : (adj (Entry.r (pickZ n))).card = 1
      · simp only [sbScan, h1, hadj, if_pos] at h
        cases hr : (merge_nuclei M (Entry.r (pickZ n))
            (pickE (adj (Entry.r (pickZ n))))).2 with
        | true =>
          simp only [hr, if_pos] at h
          cases h
          exact ⟨n, List.mem_cons_self n rest, h1, hadj, hr, rfl⟩
        | false =>
          simp only [hr, Bool.false_eq_true, if_neg, not_false_iff] at h
          obtain ⟨n', hmem, rest'⟩ := ih M L' h
          exact ⟨n', List.mem_cons_of_mem n hmem, rest'⟩
      · simp only [sbScan, h1, hadj, if_pos, if_neg, not_false_iff] at h
        obtain ⟨n', hmem, rest'⟩ := ih M L' h
        exact ⟨n', List.mem_cons_of_mem n hmem, rest'⟩
    · simp only [sbScan, h1, if_neg, not_false_iff] at h
      obtain ⟨n', hmem, rest'⟩ := ih M L' h
      exact ⟨n', List.mem_cons_of_mem n hmem, rest'⟩

theorem sbScan_none_spec (adj : Entry → Finset Entry) :
    ∀ (l M : List (Finset ℤ)), sbScan adj M l = none →
      ∀ n ∈ l, n.card = 1 → (adj (Entry.r (pickZ n))).card = 1 →
        (merge_nuclei M (Entry.r (pickZ n)) (pickE (adj (Entry.r (pickZ n))))).2 = false := by
  intro l
  induction l with
  | nil => intro M _ n hmem; simp at hmem
  | cons n0 rest ih =>
    intro M h n hmem h1 hadj
    rcases List.mem_cons.mp hmem with hh | ht
    · subst hh
      simp only [sbScan, h1, hadj, if_pos] at h
      cases hr : (merge_nuclei M (Entry.r (pickZ n))
          (pickE (adj (Entry.r (pickZ n))))).2 with
      | true => rw [if_pos hr] at h; exact Option.noConfusion h
      | false => rfl
    · by_cases h10 : n0.card = 1
      · by_cases hadj0 : (adj (Entry.r (pickZ n0))).card = 1
        · simp only [sbScan, h10, hadj0, if_pos] at h
          cases hr : (merge_nuclei M (Entry.r (pickZ n0))
              (pickE (adj (Entry.r (pickZ n0))))).2 with
          | true => rw [if_pos hr] at h; exact Option.noConfusion h
          | false =>
            simp only [hr, Bool.false_eq_true, if_neg, not_false_iff] at h
            exact ih M h n ht h1 hadj
        · simp only [sbScan, h10, hadj0, if_pos, if_neg, not_false_iff] at h
          exact ih M h n ht h1 hadj
      · simp only [sbScan, h10, if_neg, not_false_iff] at h
        exact ih M h n ht h1 hadj

theorem sbScan_some_length {adj : Entry → Finset Entry}
    {l M L' : List (Finset ℤ)} (h : sbScan adj M l = some L') :
    L'.length < M.length := by
  obtain ⟨n, -, -, -, htrue, heq⟩ := sbScan_some_spec adj l M L' h
  rw [heq]
  exact (merge_length _ _).2 htrue

theorem sbScan_some_inv {S : Finset ℤ} {adj : Entry → Finset Entry}
    {l M L' : List (Finset ℤ)} (h : sbScan adj M l = some L') (hinv : Inv M S) :
    Inv L' S := by
  obtain ⟨n, -, -, -, -, heq⟩ := sbScan_some_spec adj l M L' h
  rw [heq]
  exact merge_inv _ _ hinv

theorem sbLoop_some {adj : Entry → Finset Entry} {L L' : List (Finset ℤ)}
    (h : sbScan adj L L = some L') : sbLoop adj L = sbLoop adj L' := by
  rw [sbLoop]
  have hs : (sbScan adj L L).isSome = true := by simp [h]
  rw [dif_pos hs]
  have hget : (sbScan adj L L).get hs = L' := by simp [h]
  rw [hget]

theorem sbLoop_none {adj : Entry → Finset Entry} {L : List (Finset ℤ)}
    (h : sbScan adj L L = none) : sbLoop adj L = L := by
  rw [sbLoop]
  rw [dif_neg (by simp [h])]

/-- The SINGLEBODY loop stops at a fixed point: one more complete scan of
the result performs no merge. -/
theorem sbLoop_fixed (adj : Entry → Finset Entry) (L : List (Finset ℤ)) :
    sbScan adj (sbLoop adj L) (sbLoop adj L) = none := by
  have H : ∀ (b : ℕ) (M : List (Finset ℤ)), M.length ≤ b →
      sbScan adj (sbLoop adj M) (sbLoop adj M) = none := by
    intro b
    induction b with
    | zero =>
      intro M hb
      cases hp : sbScan adj M M with
      | some L' =>
        have := sbScan_some_length hp
        omega
      | none => rw [sbLoop_none hp]; exact hp
    | succ m ih =>
      intro M hb
      cases hp : sbScan adj M M with
      | some L' =>
        rw [sbLoop_some hp]
        have := sbScan_some_length hp
        exact ih L' (by omega)
      | none => rw [sbLoop_none hp]; exact hp
  exact H L.length L le_rfl

theorem sbLoop_inv {S : Finset ℤ} (adj : Entry → Finset Entry) :
    ∀ (L : List (Finset ℤ)), Inv L S → Inv (sbLoop adj L) S := by
  have H : ∀ (b : ℕ) (M : List (Finset ℤ)), M.length ≤ b →
      Inv M S → Inv (sbLoop adj M) S := by
    intro b
    induction b with
    | zero =>
      intro M hb h
      cases hp : sbScan adj M M with
      | some L' =>
        have := sbScan_some_length hp
        omega
      | none => rw [sbLoop_none hp]; exact h
    | succ m ih =>
      intro M hb h
      cases hp : sbScan adj M M with
      | some L' =>
        rw [sbLoop_some hp]
        have := sbScan_some_length hp
        exact ih L' (by omega) (sbScan_some_inv hp h)
      | none => rw [sbLoop_none hp]; exact h
  intro L
  exact H L.length L le_rfl

/-- Enough fuel makes the fuel-indexed SINGLEBODY iteration agree with the
fixed-point loop. -/
theorem sbIter_eq :
    ∀ (fuel : ℕ) (adj : Entry → Finset Entry) (L : List (Finset ℤ)),
      L.length < fuel → sbIter fuel adj L = sbLoop adj L := by
  intro fuel
  induction fuel with
  | zero => intro adj L h; omega
  | succ f ih =>
    intro adj L h
    simp only [sbIter]
    cases hp : sbScan adj L L with
    | some L' =>
      have hs : (some L' : Option (List (Finset ℤ))).isSome = true := rfl
      rw [dif_pos hs]
      simp only [Option.get_some]
      rw [sbLoop_some hp]
      have := sbScan_some_length hp
      exact ih adj L' (by omega)
    | none =>
      rw [dif_neg (by simp)]
      exact (sbLoop_none hp).symm

/-! ### Initial nuclei, background exclusion, counting -/

theorem mem_foldr_union :
    ∀ (L : List (Finset ℤ)) (m : ℤ),
      m ∈ L.foldr (· ∪ ·) ∅ ↔ ∃ s, s ∈ L ∧ m ∈ s := by
  intro L
  induction L with
  | nil => intro m; simp
  | cons x t ih =>
    intro m
    simp only [List.foldr_cons, Finset.mem_union, ih, List.mem_cons]
    constructor
    · rintro (hm | ⟨s, hs, hm⟩)
      · exact ⟨x, Or.inl rfl, hm⟩
      · exact ⟨s, Or.inr hs, hm⟩
    · rintro ⟨s, hs | hs, hm⟩
      · subst hs; exact Or.inl hm
      · exact Or.inr ⟨s, hs, hm⟩

theorem init_list_nodup (scene : Scene) (background : ℤ) :
    ((((collect_all_regions scene).sort (· ≤ ·)).filter
      (fun r => r ≠ background))).Nodup :=
  (Finset.sort_nodup _ _).filter _

theorem mem_init_list {scene : Scene} {background r : ℤ} :
    r ∈ ((collect_all_regions scene).sort (· ≤ ·)).filter
        (fun r => r ≠ background) ↔
      r ∈ nonBgRegions scene background := by
  simp [List.mem_filter, Finset.mem_sort, nonBgRegions, Finset.mem_filter,
    and_comm]

/-- The initial nuclei satisfy the partition invariant. -/
theorem init_inv (scene : Scene) (background : ℤ) :
    Inv (init_nuclei_all_regions scene background)
      (nonBgRegions scene background) := by
  refine ⟨?_, ?_, ?_⟩
  · unfold init_nuclei_all_regions
    rw [List.pairwise_map]
    refine List.Pairwise.imp ?_ (init_list_nodup scene background)
    intro a b hab
    simp only [Finset.disjoint_singleton]
    intro hc
    omega
  · ext m
    rw [mem_foldr_union]
    constructor
    · rintro ⟨s, hs, hm⟩
      unfold init_nuclei_all_regions at hs
      rcases List.mem_map.mp hs with ⟨r, hr, hrs⟩
      rw [← hrs] at hm
      rw [Finset.mem_singleton] at hm
      subst hm
      exact mem_init_list.mp hr
    · intro hm
      refine ⟨{m}, ?_, Finset.mem_singleton_self m⟩
      unfold init_nuclei_all_regions
      exact List.mem_map.mpr ⟨m, mem_init_list.mpr hm, rfl⟩
  · intro s hs
    unfold init_nuclei_all_regions at hs
    rcases List.mem_map.mp hs with ⟨r, -, hrs⟩
    rw [← hrs]
    exact ⟨r, Finset.mem_singleton_self r⟩

theorem mem_init {scene : Scene} {background : ℤ} {n : Finset ℤ}
    (h : n ∈ init_nuclei_all_regions scene background) :
    ∃ r, n = {r} ∧ r ∈ nonBgRegions scene background := by
  unfold init_nuclei_all_regions at h
  rcases List.mem_map.mp h with ⟨r, hr, hrs⟩
  exact ⟨r, hrs.symm, mem_init_list.mp hr⟩

theorem init_mem {scene : Scene} {background r : ℤ}
    (h : r ∈ nonBgRegions scene background) :
    ({r} : Finset ℤ) ∈ init_nuclei_all_regions scene background := by
  unfold init_nuclei_all_regions
  exact List.mem_map.mpr ⟨r, mem_init_list.mpr h, rfl⟩

/-- The background never lies in a nucleus of an invariant-preserving
partition. -/
theorem background_not_in_nucleus {scene : Scene} {background : ℤ}
    {L : List (Finset ℤ)} (h : Inv L (nonBgRegions scene background))
    {n : Finset ℤ} (hn : n ∈ L) : background ∉ n := by
  intro hbg
  have hmem : background ∈ L.foldr (· ∪ ·) ∅ :=
    (mem_foldr_union L background).mpr ⟨n, hn, hbg⟩
  rw [h.2.1] at hmem
  unfold nonBgRegions at hmem
  rw [Finset.mem_filter] at hmem
  exact hmem.2 rfl

theorem sortPair_fst {a b : Entry} :
    (sortPair a b).1 = a ∨ (sortPair a b).1 = b := by
  unfold sortPair
  by_cases h : a ≤ b
  · rw [if_pos h]; exact Or.inl rfl
  · rw [if_neg h]; exact Or.inr rfl

theorem sortPair_snd {a b : Entry} :
    (sortPair a b).2 = a ∨ (sortPair a b).2 = b := by
  unfold sortPair
  by_cases h : a ≤ b
  · rw [if_pos h]; exact Or.inr rfl
  · rw [if_neg h]; exact Or.inl rfl

theorem bump_mem :
    ∀ (m : List ((Entry × Entry) × ℕ)) (k : Entry × Entry)
      (q : (Entry × Entry) × ℕ), q ∈ bump m k →
      q.1 = k ∨ q.1 ∈ m.map Prod.fst := by
  intro m
  induction m with
  | nil =>
    intro k q hq
    simp only [bump, List.mem_singleton] at hq
    subst hq
    exact Or.inl rfl
  | cons c rest ih =>
    intro k q hq
    obtain ⟨k0, n0⟩ := c
    by_cases hk : k0 = k
    · simp only [bump, if_pos hk] at hq
      rcases List.mem_cons.mp hq with h1 | h1
      · subst h1; exact Or.inl hk
      · exact Or.inr (List.mem_map.mpr ⟨q, List.mem_cons_of_mem _ h1, rfl⟩)
    · simp only [bump, if_neg hk] at hq
      rcases List.mem_cons.mp hq with h1 | h1
      · subst h1; simp
      · rcases ih k q h1 with h2 | h2
        · exact Or.inl h2
        · right
          rcases List.mem_map.mp h2 with ⟨q', hq', hfst⟩
          exact List.mem_map.mpr ⟨q', List.mem_cons_of_mem _ hq', hfst⟩

/-- Every pair counted by `link_counts` has both components different from
the background region. -/
theorem linkCounts_no_background (links : List (Entry × Entry))
    (background : ℤ) :
    ∀ q ∈ linkCounts links background,
      q.1.1 ≠ Entry.r background ∧ q.1.2 ≠ Entry.r background := by
  have H : ∀ (ls : List (Entry × Entry)) (acc : List ((Entry × Entry) × ℕ)),
      (∀ q ∈ acc, q.1.1 ≠ Entry.r background ∧ q.1.2 ≠ Entry.r background) →
      ∀ q ∈ ls.foldl (fun m p =>
        if p.1 = Entry.r background ∨ p.2 = Entry.r background then m
        else bump m (sortPair p.1 p.2)) acc,
        q.1.1 ≠ Entry.r background ∧ q.1.2 ≠ Entry.r background := by
    intro ls
    induction ls with
    | nil => intro acc hacc q hq; exact hacc q hq
    | cons p rest ih =>
      intro acc hacc q hq
      simp only [List.foldl_cons] at hq
      by_cases hbg : p.1 = Entry.r background ∨ p.2 = Entry.r background
      · rw [if_pos hbg] at hq
        exact ih acc hacc q hq
      · rw [if_neg hbg] at hq
        push_neg at hbg
        refine ih _ ?_ q hq
        intro q' hq'
        rcases bump_mem acc (sortPair p.1 p.2) q' hq' with h1 | h1
        · rw [h1]
          constructor
          · rcases sortPair_fst (a := p.1) (b := p.2) with h2 | h2 <;>
              rw [h2]
            · exact hbg.1
            · exact hbg.2
          · rcases sortPair_snd (a := p.1) (b := p.2) with h2 | h2 <;>
              rw [h2]
            · exact hbg.1
            · exact hbg.2
        · rcases List.mem_map.mp h1 with ⟨q0, hq0, hfst⟩
          rw [← hfst]
          exact hacc q0 hq0
  intro q hq
  exact H links [] (by intro q hq; simp at hq) q hq

/-- The adjacency map of the SINGLEBODY phase never contains the
background region, and the background region has no neighbours. -/
theorem linkMap_no_background (links : List (Entry × Entry))
    (background : ℤ) :
    (∀ e, Entry.r background ∉ linkMap links background e) ∧
      linkMap links background (Entry.r background) = ∅ := by
  have H : ∀ (ls : List (Entry × Entry)) (e : Entry) (acc : Finset Entry),
      Entry.r background ∉ acc →
      Entry.r background ∉ ls.foldl (fun s p =>
        if p.1 = Entry.r background ∨ p.2 = Entry.r background then s
        else
          let s1 := if e = p.1 then insert p.2 s else s
          if e = p.2 then insert p.1 s1 else s1) acc := by
    intro ls
    induction ls with
    | nil => intro e acc hacc; exact hacc
    | cons p rest ih =>
      intro e acc hacc
      simp only [List.foldl_cons]
      refine ih e _ ?_
      have hn1 : ∀ (m : Finset Entry), Entry.r background ∉ m →
          p.1 ≠ Entry.r background → p.2 ≠ Entry.r background →
          Entry.r background ∉ (if e = p.1 then insert p.2 m else m) := by
        intro m hm hb1 hb2
        by_cases h1 : e = p.1
        · rw [if_pos h1]
          simp only [Finset.mem_insert]
          push_neg
          exact ⟨fun hc => hb2 hc.symm, hm⟩
        · rw [if_neg h1]
          exact hm
      by_cases hbg : p.1 = Entry.r background ∨ p.2 = Entry.r background
      · rw [if_pos hbg]
        exact hacc
      · rw [if_neg hbg]
        push_neg at hbg
        show Entry.r background ∉
          (if e = p.2 then
            insert p.1 (if e = p.1 then insert p.2 acc else acc)
          else (if e = p.1 then insert p.2 acc else acc))
        by_cases h2 : e = p.2
        · rw [if_pos h2]
          simp only [Finset.mem_insert]
          push_neg
          exact ⟨fun hc => hbg.1 hc.symm, hn1 acc hacc hbg.1 hbg.2⟩
        · rw [if_neg h2]
          exact hn1 acc hacc hbg.1 hbg.2
  have H2 : ∀ (ls : List (Entry × Entry)) (acc : Finset Entry),
      ls.foldl (fun s p =>
        if p.1 = Entry.r background ∨ p.2 = Entry.r background then s
        else
          let s1 := if Entry.r background = p.1 then insert p.2 s else s
          if Entry.r background = p.2 then insert p.1 s1 else s1) acc = acc := by
    intro ls
    induction ls with
    | nil => intro acc; rfl
    | cons p rest ih =>
      intro acc
      simp only [List.foldl_cons]
      by_cases hbg : p.1 = Entry.r background ∨ p.2 = Entry.r background
      · rw [if_pos hbg]
        exact ih acc
      · have hstep : (if p.1 = Entry.r background ∨ p.2 = Entry.r background
            then acc
            else
              let s1 := if Entry.r background = p.1 then insert p.2 acc else acc
              if Entry.r background = p.2 then insert p.1 s1 else s1) = acc := by
          rw [if_neg hbg]
          push_neg at hbg
          show (if Entry.r background = p.2 then
              insert p.1 (if Entry.r background = p.1 then insert p.2 acc else acc)
            else (if Entry.r background = p.1 then insert p.2 acc else acc)) = acc
          rw [if_neg (fun hc => hbg.2 hc.symm), if_neg (fun hc => hbg.1 hc.symm)]
        rw [hstep]
        exact ih acc
  constructor
  · intro e
    exact H links e ∅ (Finset.not_mem_empty _)
  · exact H2 links ∅

/-- Passes whose counted pairs are all below the strong-evidence threshold
perform no merge. -/
theorem globalPass_weak :
    ∀ (cs : List ((Entry × Entry) × ℕ)) (L : List (Finset ℤ)),
      (∀ q ∈ cs, q.2 < 2) → globalPass cs L = (L, false) := by
  intro cs
  induction cs with
  | nil => intro L _; rfl
  | cons c rest ih =>
    intro L h
    obtain ⟨k, n⟩ := c
    have hn : n < 2 := h (k, n) (List.mem_cons_self _ _)
    simp only [globalPass]
    rw [if_neg (by omega)]
    exact ih L (fun q hq => h q (List.mem_cons_of_mem _ hq))

/-- A scan merges whenever some listed singleton has a unique neighbour
and the merge primitive succeeds on the pair. -/
theorem sbScan_isSome_of {adj : Entry → Finset Entry}
    {M : List (Finset ℤ)} {n : Finset ℤ} (hmem : n ∈ M) (h1 : n.card = 1)
    (hadj : (adj (Entry.r (pickZ n))).card = 1)
    (htrue : (merge_nuclei M (Entry.r (pickZ n))
      (pickE (adj (Entry.r (pickZ n))))).2 = true) :
    (sbScan adj M M).isSome = true := by
  cases hp : sbScan adj M M with
  | some L' => rfl
  | none =>
    have := sbScan_none_spec adj M M hp n hmem h1 hadj
    rw [htrue] at this
    exact Bool.noConfusion this

/-- Error propagation through `mapM` over `Except`: one failing element
aborts the whole traversal. -/
theorem exceptMapM_error {α β : Type} (f : α → Except Err β) :
    ∀ (l : List α) (x : α), x ∈ l → (∃ e, f x = Except.error e) →
      ∃ e, l.mapM f = Except.error e := by
  intro l
  induction l with
  | nil => intro x hx; simp at hx
  | cons y t ih =>
    intro x hx he
    obtain ⟨e, hfe⟩ := he
    rcases List.mem_cons.mp hx with h1 | h1
    · subst h1
      refine ⟨e, ?_⟩
      rw [List.mapM_cons, hfe]
      rfl
    · cases hy : f y with
      | error e0 =>
        refine ⟨e0, ?_⟩
        rw [List.mapM_cons, hy]
        rfl
      | ok b =>
        obtain ⟨e2, he2⟩ := ih x h1 ⟨e, hfe⟩
        refine ⟨e2, ?_⟩
        rw [List.mapM_cons, hy]
        show (List.mapM f t).bind _ = Except.error e2
        rw [he2]
        rfl

/-! ### Claims C4-C10 -/

/-- C4, counterexample: the claim predicts `MULTI` for any angle-list
length other than 0 and 3, but `classify_vertex` never tests the length
after the emptiness check: the one-element list `[90]` is classified
`FORK`, not `MULTI`. -/
theorem c4_counterexample :
    classify_vertex [(90 : ℚ)] = JType.FORK ∧
      classify_vertex [(90 : ℚ)] ≠ JType.MULTI := by
  refine ⟨?_, ?_⟩ <;> decide

/-- C4, amended: `classify_vertex` returns `L` exactly on the empty list;
on every nonempty list of any length it applies the T / FORK / ARROW /
MULTI angle rules (T when some angle lies in the tolerance window
`[175, 185]`; else FORK when all angles are below 180; else ARROW when some
angle exceeds 180; else MULTI) — the length-3 restriction of the claim does
not exist in the code. -/
theorem c4_classifier_rules (a : List ℚ) :
    (a = [] → classify_vertex a = JType.L) ∧
    (a ≠ [] → (∃ x ∈ a, 175 ≤ x ∧ x ≤ 185) → classify_vertex a = JType.T) ∧
    (a ≠ [] → (∀ x ∈ a, ¬(175 ≤ x ∧ x ≤ 185)) → (∀ x ∈ a, x < 180) →
      classify_vertex a = JType.FORK) ∧
    (a ≠ [] → (∀ x ∈ a, ¬(175 ≤ x ∧ x ≤ 185)) → ¬(∀ x ∈ a, x < 180) →
      (∃ x ∈ a, 180 < x) → classify_vertex a = JType.ARROW) ∧
    (a ≠ [] → (∀ x ∈ a, ¬(175 ≤ x ∧ x ≤ 185)) → ¬(∀ x ∈ a, x < 180) →
      (¬∃ x ∈ a, 180 < x) → classify_vertex a = JType.MULTI) := by
  have hlen : a ≠ [] → ¬(a.length = 0) :=
    fun hne hc => hne (List.length_eq_zero.mp hc)
  have hanyT : (∃ x ∈ a, 175 ≤ x ∧ x ≤ 185) ↔ a.any estimate_for_T = true := by
    simp [List.any_eq_true, estimate_for_T]
  have hallF : (∀ x ∈ a, x < 180) ↔
      a.all (fun x => decide (x < 180)) = true := by
    simp [List.all_eq_true]
  have hanyA : (∃ x ∈ a, 180 < x) ↔
      a.any (fun x => decide (180 < x)) = true := by
    simp [List.any_eq_true]
  refine ⟨?_, ?_, ?_, ?_, ?_⟩
  · intro h; subst h; rfl
  · intro hne hex
    unfold classify_vertex
    rw [if_neg (hlen hne), if_pos (hanyT.mp hex)]
  · intro hne hnt hall
    unfold classify_vertex
    rw [if_neg (hlen hne),
      if_neg (fun hc => by
        obtain ⟨x, hx, hcc⟩ := hanyT.mpr hc
        exact hnt x hx hcc),
      if_pos (hallF.mp hall)]
  · intro hne hnt hnall hex
    unfold classify_vertex
    rw [if_neg (hlen hne),
      if_neg (fun hc => by
        obtain ⟨x, hx, hcc⟩ := hanyT.mpr hc
        exact hnt x hx hcc),
      if_neg (fun hc => hnall (hallF.mpr hc)),
      if_pos (hanyA.mp hex)]
  · intro hne hnt hnall hnex
    unfold classify_vertex
    rw [if_neg (hlen hne),
      if_neg (fun hc => by
        obtain ⟨x, hx, hcc⟩ := hanyT.mpr hc
        exact hnt x hx hcc),
      if_neg (fun hc => hnall (hallF.mpr hc)),
      if_neg (fun hc => hnex (hanyA.mpr hc))]

/-- C4, witness for the amended rules at concrete inputs. -/
theorem c4_classifier_rules_witness :
    classify_vertex [(90 : ℚ), 80, 70] = JType.FORK :=
  (c4_classifier_rules [(90 : ℚ), 80, 70]).2.2.1 (by decide)
    (by intro x hx; fin_cases hx <;> norm_num)
    (by intro x hx; fin_cases hx <;> norm_num)

/-- C5, counterexample: an ARROW vertex whose three adjacent regions are
`[1, 2, 1]` and whose wide sector is the second one selects the pair
`(regions[0], regions[2]) = (1, 1)`; the self-link guard drops it, so the
vertex emits no link at all, not exactly one. -/
theorem c5_counterexample :
    classify_vertex [(100 : ℚ), 200, 60] = JType.ARROW ∧
      kindRegionEntries cKlArrow = [Entry.r 1, Entry.r 2, Entry.r 1] ∧
      vertexLinks JType.ARROW [(100 : ℚ), 200, 60] cKlArrow = [] := by
  refine ⟨by decide, by decide, by decide⟩

/-- C5, amended: an ARROW vertex with three sector angles and three
adjacent regions `[r0, r1, r2]` emits exactly the links of `add_link` on
the pair selected by the position of the wide (>180) sector — positions 1
and 2 when the first sector is wide, 0 and 2 when the second is, 0 and 1
otherwise — which is exactly one link when the two selected regions
differ and no link when they coincide. -/
theorem c5_arrow_link (a0 a1 a2 : ℚ) (kl : List Entry) (r0 r1 r2 : Entry)
    (hreg : kindRegionEntries kl = [r0, r1, r2]) :
    vertexLinks JType.ARROW [a0, a1, a2] kl =
      if 180 < a0 then add_link r1 r2
      else if 180 < a1 then add_link r0 r2
      else add_link r0 r1 := by
  simp only [vertexLinks, hreg, List.length_cons, List.length_nil,
    List.getD_cons_zero, List.getD_cons_succ]
  norm_num
  exact fun hcc => absurd hcc (by decide)

/-- C5, witness: a concrete ARROW vertex with wide first sector linking
regions 2 and 1. -/
theorem c5_arrow_link_witness :
    vertexLinks JType.ARROW [(250 : ℚ), 20, 90] cKlArrow =
      [(Entry.r 2, Entry.r 1)] := by
  rw [c5_arrow_link 250 20 90 cKlArrow (Entry.r 1) (Entry.r 2) (Entry.r 1)
    (by decide)]
  decide

/-- C6, counterexample: `generate_links` performs no background filtering;
with background region 0, a FORK vertex adjacent to regions `[0, 1, 2]`
emits the links `(0,1)`, `(1,2)` and `(0,2)`, so the background id does
appear in emitted links.  (A FORK classification adjacent to the
background is reachable: for example three equal 120-degree sectors.) -/
theorem c6_counterexample :
    generate_links cSceneFork (fun _ => JType.FORK) (fun _ => []) =
      [(Entry.r 0, Entry.r 1), (Entry.r 1, Entry.r 2),
        (Entry.r 0, Entry.r 2)] ∧
      (Entry.r 0, Entry.r 1) ∈
        generate_links cSceneFork (fun _ => JType.FORK) (fun _ => []) ∧
      classify_vertex [(120 : ℚ), 120, 120] = JType.FORK := by
  refine ⟨by decide, by decide, by decide⟩

/-- C6, amended: although emitted links may mention the background region,
it is filtered out of everything the merger consumes: it never appears in
any nucleus (initial, after GLOBAL, or after SINGLEBODY), never in a
counted pair of the GLOBAL phase, and never in the adjacency map of the
SINGLEBODY phase. -/
theorem c6_background_filtered (scene : Scene) (links : List (Entry × Entry))
    (background : ℤ) :
    (∀ n ∈ init_nuclei_all_regions scene background, background ∉ n) ∧
    (∀ n ∈ run_GLOBAL links scene background, background ∉ n) ∧
    (∀ n ∈ run_SINGLEBODY links (run_GLOBAL links scene background)
        background, background ∉ n) ∧
    (∀ q ∈ linkCounts links background,
      q.1.1 ≠ Entry.r background ∧ q.1.2 ≠ Entry.r background) ∧
    (∀ e, Entry.r background ∉ linkMap links background e) ∧
    linkMap links background (Entry.r background) = ∅ := by
  have h0 := init_inv scene background
  have h1 : Inv (run_GLOBAL links scene background)
      (nonBgRegions scene background) := globalLoop_inv _ _ h0
  have h2 : Inv (run_SINGLEBODY links (run_GLOBAL links scene background)
      background) (nonBgRegions scene background) := sbLoop_inv _ _ h1
  exact ⟨fun n hn => background_not_in_nucleus h0 hn,
    fun n hn => background_not_in_nucleus h1 hn,
    fun n hn => background_not_in_nucleus h2 hn,
    linkCounts_no_background links background,
    (linkMap_no_background links background).1,
    (linkMap_no_background links background).2⟩

/-- C6, witness for the amended statement at a concrete scene. -/
theorem c6_background_filtered_witness : (0 : ℤ) ∉ ({1} : Finset ℤ) :=
  (c6_background_filtered cSceneTwo [] 0).1 {1} (init_mem (by decide))

/-- C7: whenever some vertex of the scene has exactly three neighbours and
its sector angles fail the rounded 360-degree check even after the
alternate-pairing retry, the whole scene aborts with a fatal error and no
body output is produced. -/
theorem c7_geometry_abort (dir : Dir) (scene : Scene) (background : ℤ)
    (h : ∃ p, p ∈ scene ∧ (kindVertexEntries p.2.kind_list).length = 3 ∧
      perVertexAngles dir scene p.2 = Except.error Err.assert) :
    ∃ e, runScene dir scene background = Except.error e := by
  obtain ⟨p, hmem, -, herr⟩ := h
  have hga : ∃ e, get_sector_angles dir scene = Except.error e := by
    unfold get_sector_angles
    refine exceptMapM_error _ scene p hmem ⟨Err.assert, ?_⟩
    rw [herr]
    rfl
  obtain ⟨e, he⟩ := hga
  refine ⟨e, ?_⟩
  unfold runScene
  rw [he]

/-- C7, witness: with every ray direction degenerate (the source's
coincident-point fallback), the three sector angles at the three-neighbour
vertex `x` are all 0, both pairings sum to 0, and the scene errors out. -/
theorem c7_geometry_abort_witness :
    ∃ e, runScene cDir0 cSceneT 9 = Except.error e := by
  refine c7_geometry_abort cDir0 cSceneT 9
    ⟨("x", ⟨(0, 0), [Entry.v "a", Entry.r 1, Entry.v "b", Entry.r 2,
        Entry.v "c", Entry.r 3, Entry.v "a"]⟩), by decide, by decide, ?_⟩
  have hnc : neighborCoords cSceneT
      [Entry.v "a", Entry.r 1, Entry.v "b", Entry.r 2, Entry.v "c",
        Entry.r 3, Entry.v "a"] = Except.ok [(0, 1), (1, 0), (0, -1)] := rfl
  have hab : ∀ p1 p2 p3 : Point, angle_between cDir0 p1 p2 p3 = 0 := by
    intro p1 p2 p3
    simp [angle_between, cDir0]
  have hz : (0 : ℚ) + 0 + 0 = 0 := by norm_num
  simp only [perVertexAngles, hnc, hab, hz]
  rw [if_neg (by decide : ¬pyRound (0 : ℚ) = 360),
    if_neg (by decide : ¬pyRound (0 : ℚ) = 360)]

/-- C8, counterexample: a vertex with four neighbours does not produce a
MULTI-signalling angle list; the code silently computes three sector
angles from the first three neighbours (here `[90, 90, 180]`), which the
classifier then maps to `T`, not `MULTI`. -/
theorem c8_counterexample :
    (kindVertexEntries cKlW).length = 4 ∧
      perVertexAngles cDirW cSceneW ⟨(0, 0), cKlW⟩ =
        Except.ok [90, 90, 180] ∧
      classify_vertex [(90 : ℚ), 90, 180] = JType.T ∧
      classify_vertex [(90 : ℚ), 90, 180] ≠ JType.MULTI := by
  refine ⟨by decide, ?_, by decide, by decide⟩
  have hnc : neighborCoords cSceneW cKlW =
      Except.ok [(1, 0), (0, 1), (-1, 0), (0, -1)] := rfl
  have h1 : angle_between cDirW (1, 0) (0, 0) (0, 1) = 90 := by
    norm_num [angle_between, cDirW]
  have h2 : angle_between cDirW (0, 1) (0, 0) (-1, 0) = 90 := by
    norm_num [angle_between, cDirW]
  have h3 : angle_between cDirW (-1, 0) (0, 0) (1, 0) = 180 := by
    norm_num [angle_between, cDirW]
  have hsum : (90 : ℚ) + 90 + 180 = 360 := by norm_num
  simp only [perVertexAngles, hnc, h1, h2, h3, hsum]
  rw [if_pos (by decide : pyRound (360 : ℚ) = 360)]

/-- C8, amended: per vertex, once the neighbour entries resolve, exactly
two neighbours give the empty angle list; three or more neighbours give
either a list of exactly three sector angles (computed from the first
three neighbours) or the fatal geometry error; fewer than two neighbours
give a fatal indexing error.  No neighbour count yields a list whose
length signals MULTI. -/
theorem c8_angle_lengths (dir : Dir) (scene : Scene) (vd : VData)
    (ns : List Point) (h : neighborCoords scene vd.kind_list = Except.ok ns) :
    (ns.length = 2 → perVertexAngles dir scene vd = Except.ok []) ∧
    (3 ≤ ns.length →
      (∃ l, perVertexAngles dir scene vd = Except.ok l ∧ l.length = 3) ∨
      perVertexAngles dir scene vd = Except.error Err.assert) ∧
    (ns.length < 2 → perVertexAngles dir scene vd = Except.error Err.idx) := by
  rcases ns with _ | ⟨x, _ | ⟨y, _ | ⟨z, rest⟩⟩⟩
  · refine ⟨fun hc => by simp at hc, fun hc => by simp at hc, fun _ => ?_⟩
    simp [perVertexAngles, h]
  · refine ⟨fun hc => by simp at hc, fun hc => by simp at hc, fun _ => ?_⟩
    simp [perVertexAngles, h]
  · refine ⟨fun _ => ?_, fun hc => by simp at hc, fun hc => by simp at hc⟩
    simp [perVertexAngles, h]
  · refine ⟨fun hc => by
      simp only [List.length_cons] at hc
      omega,
      fun _ => ?_,
      fun hc => by
      simp only [List.length_cons] at hc
      omega⟩
    simp only [perVertexAngles, h]
    by_cases h1 : pyRound (angle_between dir x vd.coords y +
        angle_between dir y vd.coords z + angle_between dir z vd.coords x) = 360
    · rw [if_pos h1]
      exact Or.inl ⟨_, rfl, rfl⟩
    · rw [if_neg h1]
      by_cases h2 : pyRound (angle_between dir y vd.coords x +
          angle_between dir z vd.coords y + angle_between dir x vd.coords z) = 360
      · rw [if_pos h2]
        exact Or.inl ⟨_, rfl, rfl⟩
      · rw [if_neg h2]
        exact Or.inr rfl

/-- C8, witness: a two-neighbour vertex of a concrete scene gets the empty
angle list. -/
theorem c8_angle_lengths_witness :
    perVertexAngles cDir0 cSceneT
      ⟨(0, 1), [Entry.v "x", Entry.r 9, Entry.v "b", Entry.r 9,
        Entry.v "x"]⟩ = Except.ok [] :=
  (c8_angle_lengths cDir0 cSceneT
    ⟨(0, 1), [Entry.v "x", Entry.r 9, Entry.v "b", Entry.r 9, Entry.v "x"]⟩
    [(0, 0), (1, 0)] rfl).1 rfl

/-- C9: re-running the GLOBAL merging loop and then the SINGLEBODY merging
loop, with the same links and background, on a partition that is already a
fixed point of both phases returns the identical partition. -/
theorem c9_idempotent (links : List (Entry × Entry)) (background : ℤ)
    (P : List (Finset ℤ))
    (hG : globalPass (linkCounts links background) P = (P, false))
    (hS : sbScan (linkMap links background) P P = none) :
    sbLoop (linkMap links background)
      (globalLoop (linkCounts links background) P) = P := by
  have hsnd : (globalPass (linkCounts links background) P).2 = false := by
    rw [hG]
  have h1 : globalLoop (linkCounts links background) P = P := by
    rw [globalLoop_false hsnd, hG]
  rw [h1, sbLoop_none hS]

/-- C9, witness at a concrete fixed point. -/
theorem c9_idempotent_witness :
    sbLoop (linkMap [] 0) (globalLoop (linkCounts [] 0) [({1} : Finset ℤ)]) =
      [({1} : Finset ℤ)] :=
  c9_idempotent [] 0 [{1}] (by decide) (by decide)

/-- C10: both fixed-point loops terminate — a completed GLOBAL pass either
reports no merge (and leaves the nuclei unchanged, ending the loop) or
strictly decreases the number of nuclei, and likewise every successful
SINGLEBODY scan; consequently fuel `|nuclei| + 1` suffices for either
while-loop, and both loops stop at genuine fixed points. -/
theorem c10_termination (counts : List ((Entry × Entry) × ℕ))
    (adj : Entry → Finset Entry) :
    (∀ L : List (Finset ℤ), (globalPass counts L).2 = true →
      (globalPass counts L).1.length < L.length) ∧
    (∀ L : List (Finset ℤ), (globalPass counts L).2 = false →
      (globalPass counts L).1 = L) ∧
    (∀ M L' : List (Finset ℤ), sbScan adj M M = some L' →
      L'.length < M.length) ∧
    (∀ (fuel : ℕ) (L : List (Finset ℤ)), L.length < fuel →
      globalIter fuel counts L = globalLoop counts L) ∧
    (∀ (fuel : ℕ) (L : List (Finset ℤ)), L.length < fuel →
      sbIter fuel adj L = sbLoop adj L) ∧
    (∀ L : List (Finset ℤ),
      globalPass counts (globalLoop counts L) = (globalLoop counts L, false)) ∧
    (∀ L : List (Finset ℤ),
      sbScan adj (sbLoop adj L) (sbLoop adj L) = none) := by
  exact ⟨fun L => (globalPass_length counts L).2,
    fun L => globalPass_false_eq counts L,
    fun M L' h => sbScan_some_length h,
    fun fuel L h => globalIter_eq fuel counts L h,
    fun fuel L h => sbIter_eq fuel adj L h,
    fun L => globalLoop_fixed counts L,
    fun L => sbLoop_fixed adj L⟩

/-- C10, witness: two units of fuel settle a one-nucleus GLOBAL loop. -/
theorem c10_termination_witness :
    globalIter 2 [] [({1} : Finset ℤ)] = globalLoop [] [({1} : Finset ℤ)] :=
  (c10_termination [] (fun _ => ∅)).2.2.2.1 2 [{1}] (by decide)

/-! ### Claims C1-C3 -/

/-- C1: the nuclei form a partition of the distinct non-background regions
at every point during merging — the initial singleton nuclei satisfy the
invariant (pairwise disjoint, nonempty, union equal to the full
non-background region set), every call of the merge primitive preserves
it, and it still holds after GLOBAL and SINGLEBODY; consequently the
extracted bodies are strictly ascending (hence duplicate-free) lists and
no region id occurs in two different bodies. -/
theorem c1_partition_invariant (scene : Scene) (links : List (Entry × Entry))
    (background : ℤ) :
    Inv (init_nuclei_all_regions scene background)
      (nonBgRegions scene background) ∧
    (∀ (L : List (Finset ℤ)) (a b : Entry),
      Inv L (nonBgRegions scene background) →
      Inv (merge_nuclei L a b).1 (nonBgRegions scene background)) ∧
    Inv (run_SINGLEBODY links (run_GLOBAL links scene background) background)
      (nonBgRegions scene background) ∧
    (∀ body ∈ extract_bodies (run_SINGLEBODY links
        (run_GLOBAL links scene background) background),
      List.Sorted (· < ·) body) ∧
    (extract_bodies (run_SINGLEBODY links (run_GLOBAL links scene background)
        background)).Pairwise (fun b1 b2 => ∀ x ∈ b1, x ∉ b2) := by
  have h0 := init_inv scene background
  have h2 : Inv (run_SINGLEBODY links (run_GLOBAL links scene background)
      background) (nonBgRegions scene background) :=
    sbLoop_inv _ _ (globalLoop_inv _ _ h0)
  refine ⟨h0, fun L a b h => merge_inv a b h, h2, ?_, ?_⟩
  · intro body hb
    rcases List.mem_map.mp hb with ⟨n, -, hbn⟩
    rw [← hbn]
    exact Finset.sort_sorted_lt n
  · unfold extract_bodies
    rw [List.pairwise_map]
    refine List.Pairwise.imp ?_ h2.1
    intro s t hst x hx hxt
    rw [Finset.mem_sort] at hx hxt
    exact Finset.disjoint_left.mp hst hx hxt

/-- C1, witness: merging two singleton nuclei of a concrete two-region
scene preserves the partition invariant. -/
theorem c1_partition_invariant_witness :
    Inv (merge_nuclei (init_nuclei_all_regions cSceneTwo 0) (Entry.r 1)
      (Entry.r 2)).1 (nonBgRegions cSceneTwo 0) :=
  (c1_partition_invariant cSceneTwo [] 0).2.1 _ (Entry.r 1) (Entry.r 2)
    (c1_partition_invariant cSceneTwo [] 0).1

/-- C2: GLOBAL starts from one singleton nucleus per distinct
non-background region; the merge primitive succeeds exactly when its two
arguments lie in two different nuclei; a pass never merges a pair counted
fewer than twice; and full scans over all counted pairs are repeated until
a complete pass performs no merge, so at the result every counted pair
with count at least 2 fails to merge. -/
theorem c2_global_merge_policy (links : List (Entry × Entry)) (scene : Scene)
    (background : ℤ) :
    (∀ n ∈ init_nuclei_all_regions scene background,
      ∃ r, n = {r} ∧ r ∈ nonBgRegions scene background) ∧
    (∀ r ∈ nonBgRegions scene background,
      ({r} : Finset ℤ) ∈ init_nuclei_all_regions scene background) ∧
    (∀ (L : List (Finset ℤ)) (a b : Entry),
      (merge_nuclei L a b).2 = true ↔
        ∃ i j, i < L.length ∧ j < L.length ∧ i ≠ j ∧
          memE a (L.getD i ∅) = true ∧ memE b (L.getD j ∅) = true) ∧
    (∀ (cs : List ((Entry × Entry) × ℕ)) (L : List (Finset ℤ)),
      (∀ q ∈ cs, q.2 < 2) → globalPass cs L = (L, false)) ∧
    run_GLOBAL links scene background =
      globalLoop (linkCounts links background)
        (init_nuclei_all_regions scene background) ∧
    globalPass (linkCounts links background)
      (run_GLOBAL links scene background) =
      (run_GLOBAL links scene background, false) ∧
    (∀ k n, (k, n) ∈ linkCounts links background → 2 ≤ n →
      (merge_nuclei (run_GLOBAL links scene background) k.1 k.2).2 = false) := by
  have hfix : globalPass (linkCounts links background)
      (run_GLOBAL links scene background) =
      (run_GLOBAL links scene background, false) := globalLoop_fixed _ _
  exact ⟨fun n hn => mem_init hn, fun r hr => init_mem hr,
    fun L a b => merge_true_iff L a b,
    fun cs L h => globalPass_weak cs L h, rfl, hfix,
    fun k n hmem h2 => globalPass_fixed_merges _ _ hfix k n hmem h2⟩

/-- C2, witness: the merge primitive succeeds on two regions lying in two
different concrete nuclei. -/
theorem c2_global_merge_policy_witness :
    (merge_nuclei [({1} : Finset ℤ), {2}] (Entry.r 1) (Entry.r 2)).2 = true :=
  ((c2_global_merge_policy [] [] 0).2.2.1 [{1}, {2}] (Entry.r 1)
    (Entry.r 2)).mpr ⟨0, 1, by decide, by decide, by decide, by decide,
      by decide⟩

/-- C3: SINGLEBODY is the fixed-point loop over the undirected adjacency
map of all non-background links; every merge it performs merges a
singleton nucleus `{r}` whose region has exactly one adjacent region with
the nucleus containing that neighbour; whenever such a singleton exists in
a different nucleus than its unique neighbour, a scan does merge; and
scanning restarts after each merge until a complete scan performs no
merge, which holds of the final result. -/
theorem c3_singlebody_policy (links : List (Entry × Entry))
    (nuclei : List (Finset ℤ)) (background : ℤ) :
    run_SINGLEBODY links nuclei background =
      sbLoop (linkMap links background) nuclei ∧
    (∀ M L' : List (Finset ℤ),
      sbScan (linkMap links background) M M = some L' →
      ∃ r : ℤ, ({r} : Finset ℤ) ∈ M ∧
        (linkMap links background (Entry.r r)).card = 1 ∧
        (merge_nuclei M (Entry.r r)
          (pickE (linkMap links background (Entry.r r)))).2 = true ∧
        L' = (merge_nuclei M (Entry.r r)
          (pickE (linkMap links background (Entry.r r)))).1) ∧
    (∀ (M : List (Finset ℤ)) (r : ℤ) (e : Entry),
      ({r} : Finset ℤ) ∈ M → linkMap links background (Entry.r r) = {e} →
      (merge_nuclei M (Entry.r r) e).2 = true →
      (sbScan (linkMap links background) M M).isSome = true) ∧
    sbScan (linkMap links background)
      (run_SINGLEBODY links nuclei background)
      (run_SINGLEBODY links nuclei background) = none := by
  refine ⟨rfl, ?_, ?_, sbLoop_fixed _ _⟩
  · intro M L' h
    obtain ⟨n, hmem, h1, hadj, htrue, heq⟩ :=
      sbScan_some_spec (linkMap links background) M M L' h
    refine ⟨pickZ n, ?_, hadj, htrue, heq⟩
    rw [← card_one_eq_pickZ h1]
    exact hmem
  · intro M r e hmem hadj htrue
    refine sbScan_isSome_of (n := {r}) hmem (Finset.card_singleton r) ?_ ?_
    · rw [pickZ_singleton, hadj]
      exact Finset.card_singleton e
    · rw [pickZ_singleton, hadj, pickE_singleton]
      exact htrue

/-- C3, witness: a concrete singleton with a unique neighbour in another
nucleus makes the scan merge. -/
theorem c3_singlebody_policy_witness :
    (sbScan (linkMap [(Entry.r 1, Entry.r 2)] 0) [({1} : Finset ℤ), {2}]
      [({1} : Finset ℤ), {2}]).isSome = true :=
  (c3_singlebody_policy [(Entry.r 1, Entry.r 2)] [{1}, {2}] 0).2.2.1
    [{1}, {2}] 1 (Entry.r 2) (by decide) (by decide) (by decide)

end SceneCore
